import Mathlib

/-! Verification development for the MEt3R multi-view consistency metric
(src/met3r/met3r.py).  The numeric code is shallowly embedded over ℚ:
float tensors become functions into ℚ, float arithmetic is exact, and an
IEEE division whose denominator is zero (whose float result is Inf or NaN,
never a finite number) is modelled as `none` or with the extended value
type `FVal`.  Python exceptions are modelled with `Except String`. -/

namespace Met3r

open BigOperators

abbrev M3 := Matrix (Fin 3) (Fin 3) ℚ
abbrev M4 := Matrix (Fin 4) (Fin 4) ℚ

/-- Model of torch.inverse on rational square matrices, through the adjugate
formula.  It is proved below to be the two-sided inverse whenever the
determinant is nonzero, the regime in which the source calls it. -/
def torchInverse {n : ℕ} (A : Matrix (Fin n) (Fin n) ℚ) : Matrix (Fin n) (Fin n) ℚ :=
  A.det⁻¹ • A.adjugate

/-- Embedding of MEt3R._get_relative_pose (met3r.py lines 209-220):
rel_pose = ood_pose @ torch.inverse(train_pose). -/
def get_relative_pose (train_pose ood_pose : M4) : M4 :=
  ood_pose * torchInverse train_pose

/-- The validity mask depth_map > 0 computed by depth_to_pointmap
(met3r.py lines 177-178); the source never reads it afterwards. -/
def valid_mask (depth_map : ℕ → ℕ → ℚ) (y x : ℕ) : Bool :=
  decide (0 < depth_map y x)

/-- Homogeneous pixel coordinate [x, y, 1, 1] built by depth_to_pointmap
(met3r.py lines 184-193) for the pixel in column x, row y. -/
def pixelHom (x y : ℕ) : Fin 4 → ℚ :=
  ![(x : ℚ), (y : ℚ), 1, 1]

/-- Embedding of MEt3R.depth_to_pointmap (met3r.py lines 147-207) at one
pixel (row y, column x): points_3d = inverse(camera_matrix) @ [x, y, 1, 1],
scaled by the depth on the first three coordinates, which are returned.
The validity mask is computed and discarded exactly as in the source. -/
def depth_to_pointmap (camera_matrix : M4) (depth_map : ℕ → ℕ → ℚ) (y x : ℕ) :
    Fin 3 → ℚ :=
  let _mask := valid_mask depth_map y x
  let inv_camera_matrix := torchInverse camera_matrix
  let points_3d := inv_camera_matrix.mulVec (pixelHom x y)
  fun i => depth_map y x * points_3d i.castSucc

/-- The 4x4 camera matrix forward builds from 3x3 intrinsics K:
torch.eye(4) with the top-left 3x3 block overwritten by K
(met3r.py lines 243-244). -/
def intrinsics4 (K : M3) : M4 :=
  Matrix.of (Fin.snoc (fun i : Fin 3 => Fin.snoc (fun j : Fin 3 => K i j) 0)
    (Fin.snoc (fun _ : Fin 3 => 0) 1))

/-- Modelled from the spec: forward pinhole projection of a 3D point for the
round-trip property — homogenize the point and multiply by the camera
matrix; the division by depth is written out in the theorem statements.
This operation is the specification's test harness, not repository code. -/
def forwardProject (camera_matrix : M4) (p : Fin 3 → ℚ) : Fin 4 → ℚ :=
  camera_matrix.mulVec (Fin.snoc p 1)

/-- Embedding of met3r.py lines 140-141 at one pixel:
confs11 = conf - 0.999 and canon = (confs11 * ptmps).sum(view dim) divided
by confs11.sum(view dim).  The division carries no epsilon; a zero
denominator makes the float result non-finite, modelled as `none`. -/
def canonical_point_pixel (conf : Fin 2 → ℚ) (ptmps : Fin 2 → Fin 3 → ℚ) :
    Option (Fin 3 → ℚ) :=
  let confs11 : Fin 2 → ℚ := fun v => conf v - 999/1000
  if (∑ v, confs11 v) = 0 then none
  else some (fun i => (∑ v, confs11 v * ptmps v i) / (∑ v, confs11 v))

/-- Background sentinel feature value: render is called with
background_color = [-10000] * C (met3r.py line 434). -/
def sentinel : ℚ := -10000

/-- Rational indicator, modelling the .float() cast of a boolean tensor. -/
def indQ (p : Prop) [Decidable p] : ℚ :=
  if p then 1 else 0

/-- Embedding of met3r.py lines 438-439: the overlap mask at a pixel is the
product over the feature channels and then over the two views of
(1 - (rendering == -10000).float()). -/
def overlap_mask {h w ch : ℕ} (r : Fin 2 → Fin h → Fin w → Fin ch → ℚ)
    (y : Fin h) (x : Fin w) : ℚ :=
  ∏ v : Fin 2, ∏ c : Fin ch, (1 - indQ (r v y x c = sentinel))

/-- Embedding of met3r.py line 442: rendering[non_overlap_mask] = 0. -/
def zero_rendering {h w ch : ℕ} (r : Fin 2 → Fin h → Fin w → Fin ch → ℚ)
    (v : Fin 2) (y : Fin h) (x : Fin w) (c : Fin ch) : ℚ :=
  if r v y x c = sentinel then 0 else r v y x c

/-- Embedding of met3r.py line 454: per-pixel feature dissimilarity
1 - dot(r1, r0) / (norm(r1) * norm(r0) + 1e-3), computed on the zeroed
rendering.  The Euclidean norm is abstracted by the parameter normFn. -/
def feat_dissim_map {h w ch : ℕ} (normFn : (Fin ch → ℚ) → ℚ)
    (r : Fin 2 → Fin h → Fin w → Fin ch → ℚ) (y : Fin h) (x : Fin w) : ℚ :=
  1 - (∑ c, zero_rendering r 1 y x c * zero_rendering r 0 y x c) /
      (normFn (fun c => zero_rendering r 1 y x c) *
       normFn (fun c => zero_rendering r 0 y x c) + 1/1000)

/-- Embedding of met3r.py line 456: the scalar score
(feat_dissim_maps * mask).sum() / (mask.sum() + 1e-6). -/
def met3r_score {h w ch : ℕ} (normFn : (Fin ch → ℚ) → ℚ)
    (r : Fin 2 → Fin h → Fin w → Fin ch → ℚ) : ℚ :=
  (∑ y, ∑ x, feat_dissim_map normFn r y x * overlap_mask r y x) /
  ((∑ y, ∑ x, overlap_mask r y x) + 1/1000000)

/-- The spec's overlap mask, in its own words: 1 at a pixel iff neither
rendered view equals the sentinel at any feature channel of that pixel. -/
def spec_mask {h w ch : ℕ} (r : Fin 2 → Fin h → Fin w → Fin ch → ℚ)
    (y : Fin h) (x : Fin w) : ℚ :=
  indQ (∀ v c, r v y x c ≠ sentinel)

/-- The spec's per-pixel dissimilarity, in its own words: computed from the
two rendered feature images themselves (no zeroing). -/
def spec_dissim_map {h w ch : ℕ} (normFn : (Fin ch → ℚ) → ℚ)
    (r : Fin 2 → Fin h → Fin w → Fin ch → ℚ) (y : Fin h) (x : Fin w) : ℚ :=
  1 - (∑ c, r 1 y x c * r 0 y x c) /
      (normFn (fun c => r 1 y x c) * normFn (fun c => r 0 y x c) + 1/1000)

/-- The spec's scalar score: sum of (dissimilarity times mask) over all
pixels divided by (sum of mask + epsilon). -/
def spec_score {h w ch : ℕ} (normFn : (Fin ch → ℚ) → ℚ)
    (r : Fin 2 → Fin h → Fin w → Fin ch → ℚ) : ℚ :=
  (∑ y, ∑ x, spec_dissim_map normFn r y x * spec_mask r y x) /
  ((∑ y, ∑ x, spec_mask r y x) + 1/1000000)

/-- Extended float value for the focal-vote computation: a finite rational,
plus Inf, -Inf and NaN. -/
inductive FVal where
  | fin (q : ℚ)
  | pinf
  | ninf
  | nan
deriving DecidableEq

/-- IEEE division over the model: a zero denominator (a float +0 here,
since every denominator in the voting path arises from products and
quotients of nonnegative-signed zeros) gives NaN for a zero numerator and
a signed infinity otherwise. -/
def ieee_div (a b : ℚ) : FVal :=
  if b = 0 then (if a = 0 then FVal.nan else if 0 < a then FVal.pinf else FVal.ninf)
  else FVal.fin (a / b)

def isNan : FVal → Bool
  | FVal.nan => true
  | _ => false

/-- Comparison used to sort vote values; NaNs are filtered out before any
sort, so their ordering here is immaterial. -/
def fle : FVal → FVal → Bool
  | FVal.ninf, _ => true
  | _, FVal.pinf => true
  | FVal.fin a, FVal.fin b => decide (a ≤ b)
  | FVal.nan, _ => true
  | _, FVal.nan => false
  | FVal.pinf, _ => false
  | FVal.fin _, FVal.ninf => false

def insertSorted (a : FVal) : List FVal → List FVal
  | [] => [a]
  | b :: l => if fle a b then a :: b :: l else b :: insertSorted a l

def sortF : List FVal → List FVal
  | [] => []
  | a :: l => insertSorted a (sortF l)

/-- Model of torch.nanmedian over a list of values: drop the NaNs, sort,
and take the lower middle element; all-NaN input gives NaN. -/
def nanmedian (l : List FVal) : FVal :=
  let vs := sortF (l.filter (fun a => !(isNan a)))
  vs.getD ((vs.length - 1) / 2) FVal.nan

/-- Pixels of an H-by-W image in row-major order, as (row, column). -/
def pixel_list (w h : ℕ) : List (ℕ × ℕ) :=
  (List.range h).flatMap (fun py => (List.range w).map (fun px => (py, px)))

/-- Embedding of met3r.py lines 360-367: per-pixel focal votes
fx_vote = u * z / x with u = px - w/2 the centered pixel abscissa and
(x, _, z) the flattened canonical point at that pixel. -/
def fx_votes (w h : ℕ) (canon : ℕ → ℕ → Fin 3 → ℚ) : List FVal :=
  (pixel_list w h).map (fun p =>
    ieee_div (((p.2 : ℚ) - (w : ℚ)/2) * canon p.1 p.2 2) (canon p.1 p.2 0))

/-- Embedding of met3r.py lines 360-368: per-pixel focal votes
fy_vote = v * z / y with v = py - h/2 the centered pixel ordinate. -/
def fy_votes (w h : ℕ) (canon : ℕ → ℕ → Fin 3 → ℚ) : List FVal :=
  (pixel_list w h).map (fun p =>
    ieee_div (((p.1 : ℚ) - (h : ℚ)/2) * canon p.1 p.2 2) (canon p.1 p.2 1))

/-- Embedding of met3r.py lines 375-376: focal normalization 1 + f / size,
with Inf and NaN propagating as in float arithmetic. -/
def normalize_focal : FVal → ℕ → FVal
  | FVal.fin q, s => FVal.fin (1 + q / (s : ℚ))
  | v, _ => v

/-- Embedding of met3r.py lines 371-377: the X and Y focal lengths are the
NaN-skipping medians of the vote columns, normalized, and repeated for
both views (repeat b c -> (b k) c with k = 2). -/
def focal_for_views (w h : ℕ) (canon : ℕ → ℕ → Fin 3 → ℚ) : Fin 2 → FVal × FVal :=
  fun _ => (normalize_focal (nanmedian (fx_votes w h canon)) w,
            normalize_focal (nanmedian (fy_votes w h canon)) h)

/-- Ragged rational tensor, used to track the shapes produced by the
einops rearrange at met3r.py line 418. -/
inductive PTensor where
  | s (q : ℚ)
  | d (ts : List PTensor)

/-- The list of sub-tensors of a dimension node (auxiliary to mergeTop). -/
def unD : PTensor → List PTensor
  | PTensor.d ts => ts
  | t => [t]

/-- Merge the two outermost dimensions of a tensor into one, the effect of
an (a b) group on the left-hand side of an einops rearrange. -/
def mergeTop : PTensor → PTensor
  | PTensor.d ts => PTensor.d ((ts.map unD).flatten)
  | t => t

/-- Apply a transformation under the outermost dimension. -/
def mapD (f : PTensor → PTensor) : PTensor → PTensor
  | PTensor.d ts => PTensor.d (ts.map f)
  | t => t

/-- Embedding of met3r.py line 418:
ptmps = rearrange(ptmps, "b k h w c -> (b k) (h w) c").  The result of this
rearrange is the object appended to the outputs at line 469 when
return_ptmps is set. -/
def rearrange_bkhwc (t : PTensor) : PTensor :=
  mergeTop (mapD (mapD mergeTop) t)

def isScalar : PTensor → Bool
  | PTensor.s _ => true
  | _ => false

/-- A 3-vector of scalars: one 3D point. -/
def isVec3 : PTensor → Bool
  | PTensor.d vs => vs.length == 3 && vs.all isScalar
  | _ => false

/-- A row of w 3D points. -/
def isRowW3 (w : ℕ) : PTensor → Bool
  | PTensor.d cells => cells.length == w && cells.all isVec3
  | _ => false

/-- An H-by-W-by-3 per-pixel grid of 3D points. -/
def isGridHW3 (h w : ℕ) : PTensor → Bool
  | PTensor.d rows => rows.length == h && rows.all (isRowW3 w)
  | _ => false

/-- A stacked pair of per-view H-by-W-by-3 grids. -/
def isViewPair (h w : ℕ) : PTensor → Bool
  | PTensor.d views => views.length == 2 && views.all (isGridHW3 h w)
  | _ => false

/-- The shape b-by-2-by-H-by-W-by-3 of the raw point maps before line 418,
which is what the claim asserts of the returned point maps. -/
def isPtmps5 (b h w : ℕ) : PTensor → Bool
  | PTensor.d batches => batches.length == b && batches.all (isViewPair h w)
  | _ => false

/-- A flat list of m 3D points. -/
def isFlatList (m : ℕ) : PTensor → Bool
  | PTensor.d pts => pts.length == m && pts.all isVec3
  | _ => false

/-- The flattened shape n-by-m-by-3 produced by the line 418 rearrange. -/
def isFlat3 (n m : ℕ) : PTensor → Bool
  | PTensor.d vs => vs.length == n && vs.all (isFlatList m)
  | _ => false

/-- One 3D point with zero coordinates, for the concrete counterexample. -/
def vec3ex : PTensor := PTensor.d [PTensor.s 0, PTensor.s 0, PTensor.s 0]

/-- A row of three points (W = 3). -/
def rowEx : PTensor := PTensor.d [vec3ex, vec3ex, vec3ex]

/-- A 2-by-3-by-3 per-view grid (H = 2, W = 3). -/
def gridEx : PTensor := PTensor.d [rowEx, rowEx]

/-- A concrete raw point-map tensor of shape 1-by-2-by-2-by-3-by-3
(batch 1, two views, H = 2, W = 3). -/
def ptmpsEx : PTensor := PTensor.d [PTensor.d [gridEx, gridEx]]

/-- Geometry path selected at met3r.py line 343. -/
inductive GeomPath where
  | stereo
  | fromDepth
deriving DecidableEq

abbrev DepthMap := ℕ → ℕ → ℚ
abbrev Image := ℕ → ℕ → ℕ → ℚ

/-- Embedding of met3r.py lines 329-331: the assertion that K, train_pose
and train_depth are provided together, triggered only when at least one of
those three is provided.  ood_depth and ood_pose are not inspected. -/
def bundle_assert (K : Option M3) (train_pose : Option M4)
    (train_depth : Option DepthMap) : Except String Unit :=
  if K.isSome || train_pose.isSome || train_depth.isSome then
    if K.isSome && train_pose.isSome && train_depth.isSome then Except.ok ()
    else Except.error "AssertionError: K, pose, and depth_map must be provided together"
  else Except.ok ()

/-- Embedding of met3r.py lines 329-347: run the bundle assertion, then
branch on train_depth alone to choose the stereo-inference path or the
depth-supplied path.  ood_depth and ood_pose are accepted but inspected by
neither the assertion nor the branch, exactly as in the source. -/
def forward_select (K : Option M3) (train_pose : Option M4)
    (train_depth : Option DepthMap) (_ood_depth : Option DepthMap)
    (_ood_pose : Option M4) : Except String GeomPath :=
  match bundle_assert K train_pose train_depth with
  | Except.error e => Except.error e
  | Except.ok _ =>
      if train_depth.isNone then Except.ok GeomPath.stereo
      else Except.ok GeomPath.fromDepth

/-- Output of the frozen stereo network for one view: a 3D point and a
confidence per pixel. -/
structure StereoPred where
  pts3d : ℕ → ℕ → Fin 3 → ℚ
  conf : ℕ → ℕ → ℚ

/-- The tuple MEt3R.forward is documented to return (score first, then the
optional extras); the source never reaches the point of building it. -/
structure ForwardOutputs where
  feat_dissim_weighted : ℚ
  mask : Option (ℕ → ℕ → ℚ) := none
  feat_dissim_maps : Option (ℕ → ℕ → ℚ) := none
  rendering : Option (Fin 2 → ℕ → ℕ → ℕ → ℚ) := none
  ptmps : Option PTensor := none

/-- Embedding of MEt3R.forward (met3r.py lines 290-470).  After the input
bundle assertion and the geometry-path branch, line 349 reads the name
only_ptmps, which is defined nowhere (it is not a parameter and not
assigned), so Python raises NameError on every call whose geometry path
completes, before any output is produced.  In the depth path a missing
ood_pose or ood_depth raises AttributeError first (lines 217 and 245). -/
def forward (_dust3r : Image → Image → StereoPred × StereoPred)
    (_train_rgb _ood_rgb : Image)
    (_return_overlap_mask _return_score_map _return_projections _return_ptmps : Bool)
    (train_depth ood_depth : Option DepthMap) (K : Option M3)
    (train_pose ood_pose : Option M4) : Except String ForwardOutputs :=
  match forward_select K train_pose train_depth ood_depth ood_pose with
  | Except.error e => Except.error e
  | Except.ok GeomPath.stereo => Except.error "NameError: name only_ptmps is not defined"
  | Except.ok GeomPath.fromDepth =>
      match ood_pose with
      | none => Except.error "AttributeError: NoneType object has no attribute shape"
      | some _ =>
          match ood_depth with
          | none => Except.error "AttributeError: NoneType object has no attribute squeeze"
          | some _ => Except.error "NameError: name only_ptmps is not defined"

end Met3r

namespace Met3r

/-! Helper lemmas. -/

theorem torchInverse_mul {n : ℕ} (A : Matrix (Fin n) (Fin n) ℚ) (h : A.det ≠ 0) :
    A * torchInverse A = 1 := by
  rw [torchInverse, mul_smul_comm, Matrix.mul_adjugate, smul_smul,
    inv_mul_cancel₀ h, one_smul]

theorem torchInverse_mul_self {n : ℕ} (A : Matrix (Fin n) (Fin n) ℚ) (h : A.det ≠ 0) :
    torchInverse A * A = 1 := by
  rw [torchInverse, smul_mul_assoc, Matrix.adjugate_mul, smul_smul,
    inv_mul_cancel₀ h, one_smul]

theorem torchInverse_eq_of_mul_eq_one {n : ℕ} (A B : Matrix (Fin n) (Fin n) ℚ)
    (hAB : A * B = 1) (hBA : B * A = 1) : torchInverse A = B := by
  have hdet : A.det ≠ 0 := by
    intro h0
    have hd := congrArg Matrix.det hAB
    rw [Matrix.det_mul, h0, zero_mul, Matrix.det_one] at hd
    exact zero_ne_one hd
  calc torchInverse A = torchInverse A * (A * B) := by rw [hAB, mul_one]
    _ = torchInverse A * A * B := by rw [mul_assoc]
    _ = B := by rw [torchInverse_mul_self A hdet, one_mul]

/-! Claim theorems. -/

/-- C9: for every pair of invertible 4x4 pose matrices A and B, composing
the relative pose from A to B with the relative pose from B to A yields the
identity transform, exactly over exact arithmetic. -/
theorem c9_relative_pose_inverse (A B : M4) (hA : A.det ≠ 0) (hB : B.det ≠ 0) :
    get_relative_pose A B * get_relative_pose B A = 1 := by
  unfold get_relative_pose
  calc B * torchInverse A * (A * torchInverse B)
      = B * (torchInverse A * A * torchInverse B) := by
        rw [mul_assoc, mul_assoc]
    _ = B * torchInverse B := by rw [torchInverse_mul_self A hA, one_mul]
    _ = 1 := torchInverse_mul B hB

theorem c9_witness :
    get_relative_pose (1 : M4) 1 * get_relative_pose 1 1 = 1 :=
  c9_relative_pose_inverse 1 1 (by simp) (by simp)

/-- C5: in the stereo-inference path the canonical point at a pixel equals
the confidence-weighted average of the two views' raw point predictions
with weight (confidence - 0.999) per view, elementwise per coordinate,
normalized by the weight sum over the two views. -/
theorem c5_confidence_fusion (conf : Fin 2 → ℚ) (ptmps : Fin 2 → Fin 3 → ℚ)
    (hw : (conf 0 - 999/1000) + (conf 1 - 999/1000) ≠ 0) :
    canonical_point_pixel conf ptmps =
      some (fun i =>
        ((conf 0 - 999/1000) * ptmps 0 i + (conf 1 - 999/1000) * ptmps 1 i) /
        ((conf 0 - 999/1000) + (conf 1 - 999/1000))) := by
  unfold canonical_point_pixel
  simp only [Fin.sum_univ_two]
  rw [if_neg hw]

theorem c5_witness :
    canonical_point_pixel (fun _ => 1) (fun _ _ => 1) =
      some (fun _ =>
        (((1 : ℚ) - 999/1000) * 1 + ((1 : ℚ) - 999/1000) * 1) /
        (((1 : ℚ) - 999/1000) + ((1 : ℚ) - 999/1000))) :=
  c5_confidence_fusion (fun _ => 1) (fun _ _ => 1) (by norm_num)

/-- C3 counterexample: a zero confidence weight sum does not yield a finite
canonical point — the fusion division at met3r.py line 141 carries no
epsilon, so confidences equal to 0.999 in both views make the denominator
exactly zero and the float result non-finite (modelled as none). -/
theorem c3_counterexample :
    canonical_point_pixel (fun _ => 999/1000) (fun _ _ => 5) = none := by
  unfold canonical_point_pixel
  norm_num

/-- C2 counterexample: providing only ood_depth and ood_pose (a non-empty
proper subset of the five depth-path inputs) raises no precondition error,
and the stereo-inference path is selected and executed. -/
theorem c2_counterexample :
    forward_select none none none (some (fun _ _ => (1 : ℚ))) (some 1) =
      Except.ok GeomPath.stereo := rfl

/-- C2 amended: only the sub-bundle containing K, train_pose and train_depth
is validated — if any of those three is provided but not all three, the
call fails with AssertionError before any inference; if none of the three
is provided the stereo path executes regardless of ood_depth and ood_pose;
and if all three are provided the depth path is taken, again regardless of
ood_depth and ood_pose. -/
theorem c2_amended :
    (∀ (K : Option M3) (tp : Option M4) (td od : Option DepthMap) (op : Option M4),
      (K.isSome || tp.isSome || td.isSome) = true →
      (K.isSome && tp.isSome && td.isSome) = false →
      forward_select K tp td od op =
        Except.error "AssertionError: K, pose, and depth_map must be provided together")
    ∧ (∀ (od : Option DepthMap) (op : Option M4),
      forward_select none none none od op = Except.ok GeomPath.stereo)
    ∧ (∀ (K : M3) (tp : M4) (td : DepthMap) (od : Option DepthMap) (op : Option M4),
      forward_select (some K) (some tp) (some td) od op = Except.ok GeomPath.fromDepth) := by
  refine ⟨?_, ?_, ?_⟩
  · intro K tp td od op h1 h2
    unfold forward_select bundle_assert
    rw [if_pos h1, if_neg (by rw [h2]; exact Bool.false_ne_true)]
  · intro od op
    rfl
  · intro K tp td od op
    rfl

theorem c2_amended_witness :
    forward_select (some 1) none none none none =
      Except.error "AssertionError: K, pose, and depth_map must be provided together" :=
  c2_amended.1 (some 1) none none none none rfl rfl

/-- C1: the code raises on every call — at met3r.py line 349 forward reads
the undefined name only_ptmps, so a call with a valid image pair and no
depth-path inputs raises NameError instead of returning the score tuple. -/
theorem c1_forward_raises (dust3r : Image → Image → StereoPred × StereoPred)
    (train_rgb ood_rgb : Image) (f1 f2 f3 f4 : Bool) :
    forward dust3r train_rgb ood_rgb f1 f2 f3 f4 none none none none none =
      Except.error "NameError: name only_ptmps is not defined" := rfl

theorem overlap_mask_eq_spec_mask {h w ch : ℕ} (r : Fin 2 → Fin h → Fin w → Fin ch → ℚ)
    (y : Fin h) (x : Fin w) : overlap_mask r y x = spec_mask r y x := by
  by_cases hall : ∀ v c, r v y x c ≠ sentinel
  · have h1 : spec_mask r y x = 1 := by
      unfold spec_mask indQ
      rw [if_pos hall]
    rw [h1]
    unfold overlap_mask
    refine Finset.prod_eq_one fun v _ => Finset.prod_eq_one fun c _ => ?_
    rw [indQ, if_neg (hall v c), sub_zero]
  · have h0 : spec_mask r y x = 0 := by
      unfold spec_mask indQ
      rw [if_neg hall]
    rw [h0]
    unfold overlap_mask
    push_neg at hall
    obtain ⟨v, c, hvc⟩ := hall
    refine Finset.prod_eq_zero (Finset.mem_univ v) ?_
    refine Finset.prod_eq_zero (Finset.mem_univ c) ?_
    rw [indQ, if_pos hvc, sub_self]

theorem spec_mask_eq_zero {h w ch : ℕ} {r : Fin 2 → Fin h → Fin w → Fin ch → ℚ}
    {y : Fin h} {x : Fin w} (hnot : ¬ ∀ v c, r v y x c ≠ sentinel) :
    spec_mask r y x = 0 := by
  unfold spec_mask indQ
  rw [if_neg hnot]

theorem dissim_mul_mask_eq {h w ch : ℕ} (normFn : (Fin ch → ℚ) → ℚ)
    (r : Fin 2 → Fin h → Fin w → Fin ch → ℚ) (y : Fin h) (x : Fin w) :
    feat_dissim_map normFn r y x * overlap_mask r y x =
      spec_dissim_map normFn r y x * spec_mask r y x := by
  rw [overlap_mask_eq_spec_mask]
  by_cases hall : ∀ v c, r v y x c ≠ sentinel
  · have hz : ∀ v c, zero_rendering r v y x c = r v y x c := fun v c => if_neg (hall v c)
    have hd : feat_dissim_map normFn r y x = spec_dissim_map normFn r y x := by
      unfold feat_dissim_map spec_dissim_map
      simp only [hz]
    rw [hd]
  · rw [spec_mask_eq_zero hall, mul_zero, mul_zero]

/-- C6: the scalar score computed by the code equals the specified formula —
sum over all pixels of (dissimilarity times mask) divided by
(sum of mask + 1e-6), where the dissimilarity at a pixel is
1 - dot(a, b) / (norm(a) * norm(b) + 1e-3) between the two rendered
feature images, and the mask is 1 at a pixel iff neither rendered view
equals the background sentinel at any feature channel of that pixel. -/
theorem c6_score_formula {h w ch : ℕ} (normFn : (Fin ch → ℚ) → ℚ)
    (r : Fin 2 → Fin h → Fin w → Fin ch → ℚ) :
    met3r_score normFn r = spec_score normFn r := by
  unfold met3r_score spec_score
  rw [Finset.sum_congr rfl (fun y _ => Finset.sum_congr rfl
        (fun x _ => dissim_mul_mask_eq normFn r y x)),
      Finset.sum_congr rfl (fun y _ => Finset.sum_congr rfl
        (fun x _ => overlap_mask_eq_spec_mask r y x))]

theorem overlap_mask_nonneg {h w ch : ℕ} (r : Fin 2 → Fin h → Fin w → Fin ch → ℚ)
    (y : Fin h) (x : Fin w) : 0 ≤ overlap_mask r y x := by
  unfold overlap_mask
  refine Finset.prod_nonneg fun v _ => Finset.prod_nonneg fun c _ => ?_
  unfold indQ
  by_cases hp : r v y x c = sentinel
  · rw [if_pos hp]
    norm_num
  · rw [if_neg hp]
    norm_num

/-- C3 amended: the per-pixel cosine denominator and the overlap-mask
normalization are epsilon-guarded (both denominators are strictly
positive, so those divisions never divide by zero), but the confidence
weight-sum division fusing the two raw point maps carries no epsilon: a
zero weight sum makes that denominator exactly zero and the canonical
point map non-finite (NaN/Inf, modelled as none) rather than finite. -/
theorem c3_amended :
    (∀ (h w ch : ℕ) (normFn : (Fin ch → ℚ) → ℚ),
      (∀ u, 0 ≤ normFn u) →
      ∀ (r : Fin 2 → Fin h → Fin w → Fin ch → ℚ) (y : Fin h) (x : Fin w),
      0 < normFn (fun c => zero_rendering r 1 y x c) *
          normFn (fun c => zero_rendering r 0 y x c) + 1/1000)
    ∧ (∀ (h w ch : ℕ) (r : Fin 2 → Fin h → Fin w → Fin ch → ℚ),
      0 < (∑ y, ∑ x, overlap_mask r y x) + 1/1000000)
    ∧ (∃ (conf : Fin 2 → ℚ) (ptmps : Fin 2 → Fin 3 → ℚ),
      canonical_point_pixel conf ptmps = none) := by
  refine ⟨?_, ?_, ?_⟩
  · intro h w ch normFn hn r y x
    have h1 : 0 ≤ normFn (fun c => zero_rendering r 1 y x c) *
        normFn (fun c => zero_rendering r 0 y x c) := mul_nonneg (hn _) (hn _)
    linarith
  · intro h w ch r
    have h1 : 0 ≤ ∑ y, ∑ x, overlap_mask r y x :=
      Finset.sum_nonneg fun y _ => Finset.sum_nonneg fun x _ => overlap_mask_nonneg r y x
    linarith
  · refine ⟨fun _ => 999/1000, fun _ _ => 0, ?_⟩
    unfold canonical_point_pixel
    norm_num

theorem c3_amended_witness :
    (0 : ℚ) < 0 * 0 + 1/1000 :=
  c3_amended.1 1 1 1 (fun _ => 0) (fun _ => le_refl 0) (fun _ _ _ _ => 0) 0 0

/-- C10: depth_to_pointmap returns a 3D point at every pixel regardless of
the sign of the depth — the output is always depth times the
back-projected homogeneous pixel, with no dependence on the internally
computed validity mask (in particular it is the same formula when the mask
is false there), and a pixel with depth 0 maps to (0, 0, 0). -/
theorem c10_depth_to_pointmap_total (camera_matrix : M4)
    (depth_map : ℕ → ℕ → ℚ) (y x : ℕ) :
    (depth_to_pointmap camera_matrix depth_map y x =
      fun i => depth_map y x *
        (torchInverse camera_matrix).mulVec (pixelHom x y) i.castSucc)
    ∧ (valid_mask depth_map y x = false →
      depth_to_pointmap camera_matrix depth_map y x =
        fun i => depth_map y x *
          (torchInverse camera_matrix).mulVec (pixelHom x y) i.castSucc)
    ∧ (depth_map y x = 0 →
      depth_to_pointmap camera_matrix depth_map y x = fun _ => 0) := by
  refine ⟨rfl, fun _ => rfl, fun h0 => ?_⟩
  funext i
  unfold depth_to_pointmap
  simp [h0]

theorem c10_witness :
    depth_to_pointmap 1 (fun _ _ => 0) 0 0 = fun _ => 0 :=
  (c10_depth_to_pointmap_total 1 (fun _ _ => 0) 0 0).2.2 rfl

theorem intrinsics4_mulVec (K : M3) (v : Fin 3 → ℚ) (t : ℚ) :
    (intrinsics4 K).mulVec (Fin.snoc v t) = Fin.snoc (K.mulVec v) t := by
  funext i
  refine Fin.lastCases ?_ (fun i => ?_) i
  · simp [intrinsics4, Matrix.mulVec, Matrix.dotProduct, Fin.sum_univ_castSucc,
      Fin.snoc_castSucc, Fin.snoc_last]
  · simp [intrinsics4, Matrix.mulVec, Matrix.dotProduct, Fin.sum_univ_castSucc,
      Fin.snoc_castSucc, Fin.snoc_last]

theorem intrinsics4_mul (A B : M3) :
    intrinsics4 A * intrinsics4 B = intrinsics4 (A * B) := by
  ext i j
  refine Fin.lastCases ?_ (fun i => ?_) i <;> refine Fin.lastCases ?_ (fun j => ?_) j <;>
    simp [intrinsics4, Matrix.mul_apply, Fin.sum_univ_castSucc,
      Fin.snoc_castSucc, Fin.snoc_last]

theorem intrinsics4_entry_cs_cs (K : M3) (i j : Fin 3) :
    intrinsics4 K i.castSucc j.castSucc = K i j := by
  unfold intrinsics4
  rw [Matrix.of_apply, Fin.snoc_castSucc, Fin.snoc_castSucc]

theorem intrinsics4_entry_cs_last (K : M3) (i : Fin 3) :
    intrinsics4 K i.castSucc (Fin.last 3) = 0 := by
  unfold intrinsics4
  rw [Matrix.of_apply, Fin.snoc_castSucc, Fin.snoc_last]

theorem intrinsics4_entry_last_cs (K : M3) (j : Fin 3) :
    intrinsics4 K (Fin.last 3) j.castSucc = 0 := by
  unfold intrinsics4
  rw [Matrix.of_apply, Fin.snoc_last, Fin.snoc_castSucc]

theorem intrinsics4_entry_last_last (K : M3) :
    intrinsics4 K (Fin.last 3) (Fin.last 3) = 1 := by
  unfold intrinsics4
  rw [Matrix.of_apply, Fin.snoc_last, Fin.snoc_last]

theorem intrinsics4_one : intrinsics4 1 = 1 := by
  ext i j
  refine Fin.lastCases ?_ (fun i => ?_) i <;> refine Fin.lastCases ?_ (fun j => ?_) j
  · rw [intrinsics4_entry_last_last, Matrix.one_apply_eq]
  · rw [intrinsics4_entry_last_cs, Matrix.one_apply_ne (Fin.castSucc_lt_last j).ne']
  · rw [intrinsics4_entry_cs_last, Matrix.one_apply_ne (Fin.castSucc_lt_last i).ne]
  · by_cases hij : i = j
    · subst hij
      rw [intrinsics4_entry_cs_cs, Matrix.one_apply_eq, Matrix.one_apply_eq]
    · rw [intrinsics4_entry_cs_cs, Matrix.one_apply_ne hij,
        Matrix.one_apply_ne (fun hc => hij (Fin.castSucc_inj.mp hc))]

/-- C8: back-projecting a depth map with a (block homogeneous, invertible)
4x4 intrinsics matrix and then forward-projecting with the same matrix
recovers, at each pixel, the original integer pixel coordinates and the
original depth, exactly over exact arithmetic. -/
theorem c8_backprojection_roundtrip (K3 K3inv : M3)
    (hAB : K3 * K3inv = 1) (hBA : K3inv * K3 = 1)
    (depth_map : ℕ → ℕ → ℚ) (y x : ℕ) (hd : 0 < depth_map y x) :
    forwardProject (intrinsics4 K3) (depth_to_pointmap (intrinsics4 K3) depth_map y x) 0
        / depth_map y x = (x : ℚ)
    ∧ forwardProject (intrinsics4 K3) (depth_to_pointmap (intrinsics4 K3) depth_map y x) 1
        / depth_map y x = (y : ℚ)
    ∧ forwardProject (intrinsics4 K3) (depth_to_pointmap (intrinsics4 K3) depth_map y x) 2
        = depth_map y x := by
  have hti : torchInverse (intrinsics4 K3) = intrinsics4 K3inv :=
    torchInverse_eq_of_mul_eq_one _ _
      (by rw [intrinsics4_mul, hAB, intrinsics4_one])
      (by rw [intrinsics4_mul, hBA, intrinsics4_one])
  have hpix : pixelHom x y = Fin.snoc ![(x : ℚ), (y : ℚ), 1] 1 := by
    funext i
    refine Fin.lastCases ?_ (fun j => ?_) i
    · rw [Fin.snoc_last]
      rfl
    · rw [Fin.snoc_castSucc]
      fin_cases j <;> rfl
  have hptm : depth_to_pointmap (intrinsics4 K3) depth_map y x =
      depth_map y x • K3inv.mulVec ![(x : ℚ), (y : ℚ), 1] := by
    funext i
    show depth_map y x *
        (torchInverse (intrinsics4 K3)).mulVec (pixelHom x y) i.castSucc = _
    rw [hti, hpix, intrinsics4_mulVec, Fin.snoc_castSucc]
    rfl
  have hq : forwardProject (intrinsics4 K3)
        (depth_to_pointmap (intrinsics4 K3) depth_map y x) =
      Fin.snoc (depth_map y x • ![(x : ℚ), (y : ℚ), 1]) 1 := by
    rw [hptm]
    unfold forwardProject
    rw [intrinsics4_mulVec, Matrix.mulVec_smul, Matrix.mulVec_mulVec, hAB,
      Matrix.one_mulVec]
  have hd0 : depth_map y x ≠ 0 := ne_of_gt hd
  refine ⟨?_, ?_, ?_⟩
  · rw [hq, show (0 : Fin 4) = Fin.castSucc 0 from rfl, Fin.snoc_castSucc]
    exact mul_div_cancel_left₀ _ hd0
  · rw [hq, show (1 : Fin 4) = Fin.castSucc 1 from rfl, Fin.snoc_castSucc]
    exact mul_div_cancel_left₀ _ hd0
  · rw [hq, show (2 : Fin 4) = Fin.castSucc 2 from rfl, Fin.snoc_castSucc]
    exact mul_one (depth_map y x)

theorem length_insertSorted (a : FVal) (l : List FVal) :
    (insertSorted a l).length = l.length + 1 := by
  induction l with
  | nil => rfl
  | cons b l ih =>
    simp only [insertSorted]
    by_cases h : fle a b
    · rw [if_pos h]
      rfl
    · rw [if_neg h]
      simp [List.length_cons, ih]

theorem length_sortF (l : List FVal) : (sortF l).length = l.length := by
  induction l with
  | nil => rfl
  | cons a l ih =>
    simp only [sortF]
    rw [length_insertSorted, ih, List.length_cons]

theorem mem_insertSorted {a b : FVal} {l : List FVal} (h : a ∈ insertSorted b l) :
    a = b ∨ a ∈ l := by
  induction l with
  | nil =>
    simp only [insertSorted, List.mem_singleton] at h
    exact Or.inl h
  | cons c l ih =>
    simp only [insertSorted] at h
    by_cases hc : fle b c
    · rw [if_pos hc] at h
      rcases List.mem_cons.mp h with h1 | h2
      · exact Or.inl h1
      · exact Or.inr h2
    · rw [if_neg hc] at h
      rcases List.mem_cons.mp h with h1 | h2
      · exact Or.inr (h1 ▸ List.mem_cons_self c l)
      · rcases ih h2 with h3 | h4
        · exact Or.inl h3
        · exact Or.inr (List.mem_cons_of_mem c h4)

theorem mem_sortF {a : FVal} {l : List FVal} (h : a ∈ sortF l) : a ∈ l := by
  induction l with
  | nil => simp [sortF] at h
  | cons b l ih =>
    simp only [sortF] at h
    rcases mem_insertSorted h with h1 | h2
    · exact h1 ▸ List.mem_cons_self b l
    · exact List.mem_cons_of_mem b (ih h2)

theorem getD_mem_of_lt {α : Type} (l : List α) (i : ℕ) (d : α) (h : i < l.length) :
    l.getD i d ∈ l := by
  rw [List.getD_eq_getElem?_getD, List.getElem?_eq_getElem h, Option.getD_some]
  exact List.getElem_mem h

theorem nanmedian_eq_fin (l : List FVal) (c : ℚ)
    (hall : ∀ a ∈ l, a = FVal.fin c ∨ a = FVal.nan)
    (hex : FVal.fin c ∈ l) : nanmedian l = FVal.fin c := by
  have hmem : ∀ a ∈ sortF (l.filter fun a => !(isNan a)), a = FVal.fin c := by
    intro a ha
    have ha2 := List.mem_filter.mp (mem_sortF ha)
    rcases hall a ha2.1 with h1 | h1
    · exact h1
    · rw [h1] at ha2
      simp [isNan] at ha2
  have hfil : FVal.fin c ∈ l.filter fun a => !(isNan a) :=
    List.mem_filter.mpr ⟨hex, by simp [isNan]⟩
  have hpos : 0 < (sortF (l.filter fun a => !(isNan a))).length := by
    rw [length_sortF]
    exact List.length_pos.mpr (List.ne_nil_of_mem hfil)
  have hidx : ((sortF (l.filter fun a => !(isNan a))).length - 1) / 2 <
      (sortF (l.filter fun a => !(isNan a))).length :=
    lt_of_le_of_lt (Nat.div_le_self _ _) (Nat.sub_lt hpos one_pos)
  show (sortF (l.filter fun a => !(isNan a))).getD _ FVal.nan = FVal.fin c
  exact hmem _ (getD_mem_of_lt _ _ _ hidx)

theorem ieee_div_vote (u z fx : ℚ) (hz : z ≠ 0) (hfx : fx ≠ 0) :
    ieee_div (u * z) (u * z / fx) = if u = 0 then FVal.nan else FVal.fin fx := by
  by_cases hu : u = 0
  · rw [if_pos hu, hu]
    unfold ieee_div
    norm_num
  · rw [if_neg hu]
    unfold ieee_div
    rw [if_neg (div_ne_zero (mul_ne_zero hu hz) hfx),
      div_div_eq_mul_div, mul_div_cancel_left₀ _ (mul_ne_zero hu hz)]

theorem mem_pixel_list {w h : ℕ} {p : ℕ × ℕ} (hp : p ∈ pixel_list w h) :
    p.1 < h ∧ p.2 < w := by
  unfold pixel_list at hp
  obtain ⟨py, hpy, hp2⟩ := List.mem_flatMap.mp hp
  obtain ⟨px, hpx, rfl⟩ := List.mem_map.mp hp2
  exact ⟨List.mem_range.mp hpy, List.mem_range.mp hpx⟩

theorem zero_mem_pixel_list (w h : ℕ) (hw : 0 < w) (hh : 0 < h) :
    ((0, 0) : ℕ × ℕ) ∈ pixel_list w h := by
  unfold pixel_list
  exact List.mem_flatMap.mpr ⟨0, List.mem_range.mpr hh,
    List.mem_map.mpr ⟨0, List.mem_range.mpr hw, rfl⟩⟩

/-- C7: when no intrinsics are supplied, the focal estimator computes
per-pixel votes u*z/x and v*z/y from the centered pixel grid and the
flattened canonical point map, aggregates them with a NaN-skipping median,
and on a canonical point map generated by exact pinhole projection from
known fx, fy the medians recover the true focal lengths exactly; the
result is normalized as 1 + f/width (resp. 1 + f/height) and the same
value is used for both views. -/
theorem c7_focal_recovery (w h : ℕ) (fx fy : ℚ) (z : ℕ → ℕ → ℚ)
    (canon : ℕ → ℕ → Fin 3 → ℚ)
    (hw : 0 < w) (hh : 0 < h) (hfx : 0 < fx) (hfy : 0 < fy)
    (hz : ∀ py px, py < h → px < w → 0 < z py px)
    (hcanon0 : ∀ py px, py < h → px < w →
      canon py px 0 = ((px : ℚ) - (w : ℚ)/2) * z py px / fx)
    (hcanon1 : ∀ py px, py < h → px < w →
      canon py px 1 = ((py : ℚ) - (h : ℚ)/2) * z py px / fy)
    (hcanon2 : ∀ py px, py < h → px < w → canon py px 2 = z py px) :
    ∀ v : Fin 2, focal_for_views w h canon v =
      (FVal.fin (1 + fx / (w : ℚ)), FVal.fin (1 + fy / (h : ℚ))) := by
  intro v
  have hwx : ((0 : ℕ) : ℚ) - (w : ℚ)/2 ≠ 0 := by
    have hw2 : (0 : ℚ) < (w : ℚ) := by exact_mod_cast hw
    intro h0
    rw [Nat.cast_zero] at h0
    linarith
  have hhy : ((0 : ℕ) : ℚ) - (h : ℚ)/2 ≠ 0 := by
    have hh2 : (0 : ℚ) < (h : ℚ) := by exact_mod_cast hh
    intro h0
    rw [Nat.cast_zero] at h0
    linarith
  have hmx : nanmedian (fx_votes w h canon) = FVal.fin fx := by
    apply nanmedian_eq_fin
    · intro a ha
      unfold fx_votes at ha
      obtain ⟨p, hp, rfl⟩ := List.mem_map.mp ha
      obtain ⟨hpy, hpx⟩ := mem_pixel_list hp
      rw [hcanon0 _ _ hpy hpx, hcanon2 _ _ hpy hpx,
        ieee_div_vote _ _ _ (ne_of_gt (hz _ _ hpy hpx)) (ne_of_gt hfx)]
      by_cases hu : ((p.2 : ℚ) - (w : ℚ)/2) = 0
      · rw [if_pos hu]
        exact Or.inr rfl
      · rw [if_neg hu]
        exact Or.inl rfl
    · unfold fx_votes
      refine List.mem_map.mpr ⟨(0, 0), zero_mem_pixel_list w h hw hh, ?_⟩
      show ieee_div ((((0 : ℕ) : ℚ) - (w : ℚ)/2) * canon 0 0 2) (canon 0 0 0) =
        FVal.fin fx
      rw [hcanon0 0 0 hh hw, hcanon2 0 0 hh hw,
        ieee_div_vote _ _ _ (ne_of_gt (hz 0 0 hh hw)) (ne_of_gt hfx), if_neg hwx]
  have hmy : nanmedian (fy_votes w h canon) = FVal.fin fy := by
    apply nanmedian_eq_fin
    · intro a ha
      unfold fy_votes at ha
      obtain ⟨p, hp, rfl⟩ := List.mem_map.mp ha
      obtain ⟨hpy, hpx⟩ := mem_pixel_list hp
      rw [hcanon1 _ _ hpy hpx, hcanon2 _ _ hpy hpx,
        ieee_div_vote _ _ _ (ne_of_gt (hz _ _ hpy hpx)) (ne_of_gt hfy)]
      by_cases hu : ((p.1 : ℚ) - (h : ℚ)/2) = 0
      · rw [if_pos hu]
        exact Or.inr rfl
      · rw [if_neg hu]
        exact Or.inl rfl
    · unfold fy_votes
      refine List.mem_map.mpr ⟨(0, 0), zero_mem_pixel_list w h hw hh, ?_⟩
      show ieee_div ((((0 : ℕ) : ℚ) - (h : ℚ)/2) * canon 0 0 2) (canon 0 0 1) =
        FVal.fin fy
      rw [hcanon1 0 0 hh hw, hcanon2 0 0 hh hw,
        ieee_div_vote _ _ _ (ne_of_gt (hz 0 0 hh hw)) (ne_of_gt hfy), if_neg hhy]
  show (normalize_focal (nanmedian (fx_votes w h canon)) w,
        normalize_focal (nanmedian (fy_votes w h canon)) h) =
    (FVal.fin (1 + fx / (w : ℚ)), FVal.fin (1 + fy / (h : ℚ)))
  rw [hmx, hmy]
  rfl

theorem c7_witness :
    focal_for_views 1 1
      (fun py px => ![((px : ℚ) - ((1 : ℕ) : ℚ)/2) * 1 / 1,
                      ((py : ℚ) - ((1 : ℕ) : ℚ)/2) * 1 / 1, 1]) 0 =
      (FVal.fin (1 + 1 / ((1 : ℕ) : ℚ)), FVal.fin (1 + 1 / ((1 : ℕ) : ℚ))) :=
  c7_focal_recovery 1 1 1 1 (fun _ _ => 1)
    (fun py px => ![((px : ℚ) - ((1 : ℕ) : ℚ)/2) * 1 / 1,
                    ((py : ℚ) - ((1 : ℕ) : ℚ)/2) * 1 / 1, 1])
    one_pos one_pos one_pos one_pos (fun _ _ _ _ => one_pos)
    (fun _ _ _ _ => rfl) (fun _ _ _ _ => rfl) (fun _ _ _ _ => rfl) 0

theorem length_flatten_of_all {α : Type} (L : List (List α)) (m : ℕ)
    (hall : ∀ s ∈ L, s.length = m) : L.flatten.length = L.length * m := by
  induction L with
  | nil => simp
  | cons s L ih =>
    rw [List.flatten_cons, List.length_append, hall s (List.mem_cons_self s L),
      ih (fun t ht => hall t (List.mem_cons_of_mem s ht)), List.length_cons]
    ring

theorem mergeTop_grid {h w : ℕ} {g : PTensor} (hg : isGridHW3 h w g = true) :
    isFlatList (h * w) (mergeTop g) = true := by
  cases g with
  | s q => simp [isGridHW3] at hg
  | d rows =>
    simp only [isGridHW3, Bool.and_eq_true, beq_iff_eq, List.all_eq_true] at hg
    obtain ⟨hlen, hrows⟩ := hg
    simp only [mergeTop, isFlatList, Bool.and_eq_true, beq_iff_eq, List.all_eq_true]
    have hl : ∀ s ∈ rows.map unD, s.length = w := by
      intro s hs
      obtain ⟨row, hrow, rfl⟩ := List.mem_map.mp hs
      have hr := hrows row hrow
      cases row with
      | s q => simp [isRowW3] at hr
      | d cells =>
        simp only [isRowW3, Bool.and_eq_true, beq_iff_eq] at hr
        simpa [unD] using hr.1
    constructor
    · rw [length_flatten_of_all (rows.map unD) w hl, List.length_map, hlen,
        Nat.mul_comm]
    · intro pt hpt
      obtain ⟨s, hs, hpts⟩ := List.mem_flatten.mp hpt
      obtain ⟨row, hrow, rfl⟩ := List.mem_map.mp hs
      have hr := hrows row hrow
      cases row with
      | s q => simp [isRowW3] at hr
      | d cells =>
        simp only [isRowW3, Bool.and_eq_true, beq_iff_eq, List.all_eq_true] at hr
        exact hr.2 pt (by simpa [unD] using hpts)

/-- C4 amended: the raw point maps appended to the forward outputs are not
per-view H-by-W-by-3 grids — line 418 flattens them first, so the appended
object has shape (b*2)-by-(H*W)-by-3, holding one 3D point per input pixel
per view in flattened form. -/
theorem c4_amended (t : PTensor) (b h w : ℕ) (ht : isPtmps5 b h w t = true) :
    isFlat3 (b * 2) (h * w) (rearrange_bkhwc t) = true := by
  cases t with
  | s q => simp [isPtmps5] at ht
  | d batches =>
    simp only [isPtmps5, Bool.and_eq_true, beq_iff_eq, List.all_eq_true] at ht
    obtain ⟨hblen, hbatches⟩ := ht
    show isFlat3 (b * 2) (h * w)
      (PTensor.d (((batches.map (mapD mergeTop)).map unD).flatten)) = true
    simp only [isFlat3, Bool.and_eq_true, beq_iff_eq, List.all_eq_true]
    have hl : ∀ s ∈ (batches.map (mapD mergeTop)).map unD, s.length = 2 := by
      intro s hs
      obtain ⟨bt, hbt, rfl⟩ := List.mem_map.mp hs
      obtain ⟨batch, hbatch, rfl⟩ := List.mem_map.mp hbt
      have hb := hbatches batch hbatch
      cases batch with
      | s q => simp [isViewPair] at hb
      | d views =>
        simp only [isViewPair, Bool.and_eq_true, beq_iff_eq] at hb
        simp [mapD, unD, hb.1]
    constructor
    · rw [length_flatten_of_all _ 2 hl, List.length_map, List.length_map, hblen]
    · intro fl hfl
      obtain ⟨s, hs, hfls⟩ := List.mem_flatten.mp hfl
      obtain ⟨bt, hbt, rfl⟩ := List.mem_map.mp hs
      obtain ⟨batch, hbatch, rfl⟩ := List.mem_map.mp hbt
      have hb := hbatches batch hbatch
      cases batch with
      | s q => simp [isViewPair] at hb
      | d views =>
        simp only [isViewPair, Bool.and_eq_true, beq_iff_eq, List.all_eq_true] at hb
        have hfl2 : fl ∈ views.map mergeTop := by simpa [mapD, unD] using hfls
        obtain ⟨g, hg, rfl⟩ := List.mem_map.mp hfl2
        exact mergeTop_grid (hb.2 g hg)

theorem c4_amended_witness :
    isFlat3 (1 * 2) (2 * 3) (rearrange_bkhwc ptmpsEx) = true :=
  c4_amended ptmpsEx 1 2 3 rfl

/-- C4 counterexample: for a concrete raw point-map tensor of shape
1x2x2x3x3 (batch 1, two views, H = 2, W = 3), the value computed by the
line 418 rearrange — the object appended to the outputs when return_ptmps
is set — is not a stack of per-view 2-by-3-by-3 grids: it has the
flattened shape 2-by-6-by-3 instead. -/
theorem c4_counterexample :
    isPtmps5 1 2 3 ptmpsEx = true
    ∧ isPtmps5 1 2 3 (rearrange_bkhwc ptmpsEx) = false
    ∧ isFlat3 2 6 (rearrange_bkhwc ptmpsEx) = true := by
  refine ⟨?_, ?_, ?_⟩ <;> rfl

theorem c8_witness :
    forwardProject (intrinsics4 1) (depth_to_pointmap (intrinsics4 1) (fun _ _ => 1) 0 0) 0
        / (fun _ _ => (1 : ℚ)) 0 0 = ((0 : ℕ) : ℚ)
    ∧ forwardProject (intrinsics4 1) (depth_to_pointmap (intrinsics4 1) (fun _ _ => 1) 0 0) 1
        / (fun _ _ => (1 : ℚ)) 0 0 = ((0 : ℕ) : ℚ)
    ∧ forwardProject (intrinsics4 1) (depth_to_pointmap (intrinsics4 1) (fun _ _ => 1) 0 0) 2
        = (fun _ _ => (1 : ℚ)) 0 0 :=
  c8_backprojection_roundtrip 1 1 (mul_one 1) (mul_one 1) (fun _ _ => 1) 0 0 one_pos

end Met3r
